import Mathlib

/-!
Verification of the composefs-rs core against its natural-language
specification.  The Rust sources are shallowly embedded: machine bytes become
`Nat` values (each in the range 0..255), byte buffers become `List Nat`,
fallible operations return `Except`/`Option`, and Rust panics (assert!/todo!)
are a distinguished outcome separate from returned errors.  The zstd
compression layer wrapping a split stream is a faithful byte transport
(decoder yields exactly the bytes fed to the encoder), so it is modelled as
the identity on byte sequences.  SHA-256 and the fsverity digest are treated
as opaque parameters: the control flow being verified never inspects digest
bytes, it only compares and stores them.
-/

namespace Composefs

/-- Byte sequences: each element is one byte. -/
abbrev Bytes := List Nat

/-- Decidable equality for `Except`, used to evaluate concrete runs. -/
instance {ε α : Type} [DecidableEq ε] [DecidableEq α] :
    DecidableEq (Except ε α) := fun a b =>
  match a, b with
  | .error e, .error f =>
    if h : e = f then .isTrue (by rw [h])
    else .isFalse (by intro hc; cases hc; exact h rfl)
  | .error _, .ok _ => .isFalse (by intro hc; cases hc)
  | .ok _, .error _ => .isFalse (by intro hc; cases hc)
  | .ok x, .ok y =>
    if h : x = y then .isTrue (by rw [h])
    else .isFalse (by intro hc; cases hc; exact h rfl)

/-- Little-endian 8-byte encoding of a `u64` value, as written by
`(size as u64).to_le_bytes()` in `SplitStreamWriter::write_fragment`. -/
def le64 (n : Nat) : Bytes :=
  [n % 256, n / 256 % 256, n / 256 ^ 2 % 256, n / 256 ^ 3 % 256,
   n / 256 ^ 4 % 256, n / 256 ^ 5 % 256, n / 256 ^ 6 % 256, n / 256 ^ 7 % 256]

/-- Little-endian value of a byte list, as computed by `u64::from_le_bytes`. -/
def leVal : Bytes → Nat
  | [] => 0
  | b :: bs => b + 256 * leVal bs

/-! ## Split-stream writer (src/splitstream.rs, `SplitStreamWriter`)

The writer state holds the pending inline buffer, the bytes written so far to
the zstd encoder (header plus completed frames), and the optional rolling
SHA-256 context paired with the claimed content hash.  The rolling context is
modelled as the accumulated list of hashed bytes; finalizing applies an
arbitrary hash function to that list, which matches the incremental sha2 API
where update-then-finalize hashes the concatenation of all updates. -/

/-- State of a `SplitStreamWriter`: `inlineContent` is `inline_content`,
`out` is every byte written to the encoder so far, and `hash` models the
`sha256: Option<(Sha256, Sha256HashValue)>` field as (accumulated bytes,
expected digest). -/
structure WriterState where
  inlineContent : Bytes
  out : Bytes
  hash : Option (Bytes × Bytes)
deriving DecidableEq, Repr

/-- Digest-map entries as stored in `DigestMap.map`: (body sha256, verity). -/
abbrev DMap := List (Bytes × Bytes)

/-- Model of `SplitStreamWriter::new`: writes the 64-bit LE entry count and
then each map entry (body bytes then verity bytes) to the encoder, or a zero
count when no map is given; initializes the rolling hash when a claimed
sha256 is given. -/
def newWriter (refs : Option DMap) (sha256 : Option Bytes) : WriterState :=
  { inlineContent := []
    out :=
      match refs with
      | some m => le64 m.length ++ m.flatMap (fun e => e.1 ++ e.2)
      | none => le64 0
    hash := sha256.map (fun x => ([], x)) }

/-- Model of `SplitStreamWriter::write_fragment`: 64-bit LE size then data. -/
def writeFragment (size : Nat) (data : Bytes) : Bytes :=
  le64 size ++ data

/-- Model of `SplitStreamWriter::flush_inline(new_value)`.  Note the faithful
quirk: the body of the `if` is only entered when `inline_content` is
non-empty, so `new_value` is installed as the new buffer only in that case;
an empty buffer leaves `new_value` unused (it is dropped). -/
def flushInline (s : WriterState) (newValue : Bytes) : WriterState :=
  if s.inlineContent = [] then s
  else
    { s with
      out := s.out ++ writeFragment s.inlineContent.length s.inlineContent
      inlineContent := newValue }

/-- Model of `SplitStreamWriter::write_inline`: updates the rolling hash and
appends to the pending inline buffer. -/
def writeInline (s : WriterState) (data : Bytes) : WriterState :=
  { s with
    hash := s.hash.map (fun h => (h.1 ++ data, h.2))
    inlineContent := s.inlineContent ++ data }

/-- Model of `SplitStreamWriter::write_reference`: flushes the pending inline
buffer (installing `padding` as the new buffer when the flush happens), then
writes a zero-sized fragment whose body is the 32-byte reference. -/
def writeReference (s : WriterState) (reference : Bytes) (padding : Bytes) :
    WriterState :=
  let s' := flushInline s padding
  { s' with out := s'.out ++ writeFragment 0 reference }

/-- Model of `SplitStreamWriter::write_external`: updates the rolling hash
with the data and padding, stores the payload in the object store (the store
is modelled by the digest function `dig`, and `ensure_object` is treated as
infallible), and writes the external reference. -/
def writeExternal (dig : Bytes → Bytes) (s : WriterState)
    (data padding : Bytes) : WriterState :=
  let s' :=
    { s with hash := s.hash.map (fun h => (h.1 ++ (data ++ padding), h.2)) }
  writeReference s' (dig data) padding

/-- Error kind raised by `done()` when the claimed content hash disagrees
(`bail!("Content doesn't have expected SHA256 hash value!")`). -/
inductive SSErr where
  | integrity
deriving DecidableEq, Repr

/-- Model of `SplitStreamWriter::done`: flushes the remaining inline bytes,
then checks the rolling hash against the claimed value, failing with an
Integrity error on disagreement; on success it returns the full byte stream
handed to the compressor (the compressed blob is then stored via
`ensure_object`, modelled as infallible). -/
def ssDone (sha : Bytes → Bytes) (s : WriterState) : Except SSErr Bytes :=
  match (flushInline s []).hash with
  | some h =>
    if sha h.1 = h.2 then .ok (flushInline s []).out else .error .integrity
  | none => .ok (flushInline s []).out

/-- One call in a writer session: either `write_inline(data)` or
`write_external(data, padding)`. -/
inductive SSOp where
  | inl (data : Bytes)
  | ext (data padding : Bytes)
deriving DecidableEq, Repr

/-- Apply one writer call to the state. -/
def applyOp (dig : Bytes → Bytes) (s : WriterState) : SSOp → WriterState
  | .inl data => writeInline s data
  | .ext data padding => writeExternal dig s data padding

/-- Apply a whole sequence of writer calls in order. -/
def applyOps (dig : Bytes → Bytes) (s : WriterState) (ops : List SSOp) :
    WriterState :=
  ops.foldl (applyOp dig) s

/-- Logical bytes of a call sequence: each `write_inline`'s data, and for
each `write_external` its data followed by its padding, in call order. -/
def logicalBytes (ops : List SSOp) : Bytes :=
  ops.flatMap fun op =>
    match op with
    | .inl data => data
    | .ext data padding => data ++ padding

/-! ## Split-stream reader (src/splitstream.rs, `SplitStreamReader`) -/

/-- Errors returned (as `anyhow::Result` errors) by the reader: `ioFail`
stands for I/O failures such as `UnexpectedEof` from `read_exact`, `corrupt`
for the `bail!` cases that reject malformed framing. -/
inductive RErr where
  | ioFail
  | corrupt
deriving DecidableEq, Repr

/-- Outcome of a reader operation: a value, a returned error, or a Rust
panic (from a failed `assert!`). -/
inductive Outcome (α : Type) where
  | ok (a : α)
  | err (e : RErr)
  | panics
deriving DecidableEq, Repr

/-- State of a `SplitStreamReader` after the header has been parsed:
`inlineBytes` tracks the bytes remaining in the current inline frame, `data`
is the remaining decompressed byte stream. -/
structure ReaderState where
  inlineBytes : Nat
  data : Bytes
deriving DecidableEq, Repr

/-- Model of `read_u64_le` built on `read_exactish`: reading at clean EOF
(no bytes at all) yields `none`; a short read (1..7 bytes available) is an
`UnexpectedEof` I/O error; otherwise the 8-byte LE value and the rest. -/
def readU64le (data : Bytes) : Except RErr (Option (Nat × Bytes)) :=
  if data = [] then .ok none
  else if data.length < 8 then .error .ioFail
  else .ok (some (leVal (data.take 8), data.drop 8))

/-- Chunk classification returned by `ensure_chunk`. -/
inductive ChunkType where
  | eof
  | inl
  | ext (id : Bytes)
deriving DecidableEq, Repr

/-- Model of `SplitStreamReader::ensure_chunk`.  When no inline bytes are
pending it reads the next frame header: EOF returns `eof` (or bails when
`eofOk` is false), a zero size reads the 32-byte external reference and
returns it (or bails when `extOk` is false), and a non-zero size becomes the
pending inline byte count.  An inline chunk smaller than `expectedBytes` is
a corrupt-stream error. -/
def ensureChunk (eofOk extOk : Bool) (expectedBytes : Nat) (s : ReaderState) :
    Except RErr (ChunkType × ReaderState) :=
  if s.inlineBytes = 0 then
    match readU64le s.data with
    | .error e => .error e
    | .ok none => if eofOk then .ok (.eof, s) else .error .corrupt
    | .ok (some (size, rest)) =>
      if size = 0 then
        if extOk then
          if rest.length < 32 then .error .ioFail
          else .ok (.ext (rest.take 32), ⟨0, rest.drop 32⟩)
        else .error .corrupt
      else
        if size < expectedBytes then .error .corrupt
        else .ok (.inl, ⟨size, rest⟩)
  else
    if s.inlineBytes < expectedBytes then .error .corrupt
    else .ok (.inl, s)

/-- Model of `SplitStreamReader::discard_padding`: asserts `size <= 512`
(panicking otherwise), requires an inline chunk of at least `size` bytes,
then consumes `size` bytes. -/
def discardPadding (s : ReaderState) (size : Nat) : Outcome ReaderState :=
  if size ≤ 512 then
    match ensureChunk false false size s with
    | .error e => .err e
    | .ok (_, s') =>
      if s'.data.length < size then .err .ioFail
      else .ok ⟨s'.inlineBytes - size, s'.data.drop size⟩
  else .panics

/-- Data returned by `read_exact`: inline payload bytes or the digest of an
external reference. -/
inductive SSData where
  | inl (content : Bytes)
  | ext (id : Bytes)
deriving DecidableEq, Repr

/-- Model of `SplitStreamReader::read_exact(actual_size, stored_size)`: an
external frame returns the reference after discarding
`stored_size - actual_size` bytes of padding (when `actual_size <
stored_size`); an inline frame reads `stored_size` bytes and truncates the
result to `actual_size`. -/
def readExact (s : ReaderState) (actualSize storedSize : Nat) :
    Outcome (SSData × ReaderState) :=
  match ensureChunk false true storedSize s with
  | .error e => .err e
  | .ok (.ext id, s') =>
    if actualSize < storedSize then
      match discardPadding s' (storedSize - actualSize) with
      | .panics => .panics
      | .err e => .err e
      | .ok s'' => .ok (.ext id, s'')
    else .ok (.ext id, s')
  | .ok (.inl, s') =>
    if s'.data.length < storedSize then .err .ioFail
    else
      .ok (.inl ((s'.data.take storedSize).take actualSize),
        ⟨s'.inlineBytes - storedSize, s'.data.drop storedSize⟩)
  | .ok (.eof, _) => .err .corrupt

/-- Model of `SplitStreamReader::cat`: loops reading chunks, copying inline
frames verbatim and substituting each external reference by the bytes the
loader returns for its digest; a clean EOF between frames ends the loop.
The recursion is fuelled; `none` means the fuel ran out (every terminating
run of the Rust loop is reproduced by a large enough fuel). -/
def catF (loadData : Bytes → Bytes) :
    Nat → ReaderState → Option (Except RErr Bytes)
  | 0, _ => none
  | fuel + 1, s =>
    match ensureChunk true true 0 s with
    | .error e => some (.error e)
    | .ok (.eof, _) => some (.ok [])
    | .ok (.inl, s') =>
      if s'.data.length < s'.inlineBytes then some (.error .ioFail)
      else
        match catF loadData fuel ⟨0, s'.data.drop s'.inlineBytes⟩ with
        | none => none
        | some (.error e) => some (.error e)
        | some (.ok rest) => some (.ok (s'.data.take s'.inlineBytes ++ rest))
    | .ok (.ext id, s') =>
      match catF loadData fuel s' with
      | none => none
      | some (.error e) => some (.error e)
      | some (.ok rest) => some (.ok (loadData id ++ rest))

/-- Parse the digest-map header as `SplitStreamReader::new` does: an 8-byte
LE count then that many 32+32-byte entries; returns the map and the reader
state positioned at the first frame. -/
def readerNew (stream : Bytes) : Except RErr (DMap × ReaderState) :=
  if stream.length < 8 then .error .ioFail
  else
    let n := leVal (stream.take 8)
    let rest := stream.drop 8
    if rest.length < 64 * n then .error .ioFail
    else
      let entries := (List.range n).map fun i =>
        ((rest.drop (64 * i)).take 32, (rest.drop (64 * i + 32)).take 32)
      .ok (entries, ⟨0, rest.drop (64 * n)⟩)

/-! ## Lemmas about the writer's rolling hash -/

/-- The flush step never touches the rolling-hash field. -/
theorem flushInline_hash (s : WriterState) (v : Bytes) :
    (flushInline s v).hash = s.hash := by
  unfold flushInline
  split <;> rfl

/-- Writing a reference never touches the rolling-hash field. -/
theorem writeReference_hash (s : WriterState) (r p : Bytes) :
    (writeReference s r p).hash = s.hash := by
  unfold writeReference
  simp [flushInline_hash]

/-- Writing inline data appends it to the rolling-hash accumulator. -/
theorem writeInline_hash (s : WriterState) (data : Bytes) :
    (writeInline s data).hash =
      s.hash.map (fun h => (h.1 ++ data, h.2)) := rfl

/-- Writing external data appends the data and padding to the rolling-hash
accumulator. -/
theorem writeExternal_hash (dig : Bytes → Bytes) (s : WriterState)
    (data padding : Bytes) :
    (writeExternal dig s data padding).hash =
      s.hash.map (fun h => (h.1 ++ (data ++ padding), h.2)) := by
  unfold writeExternal
  rw [writeReference_hash]

/-- Applying a call sequence appends exactly its logical bytes to the
rolling-hash accumulator. -/
theorem applyOps_hash (dig : Bytes → Bytes) (ops : List SSOp) (s : WriterState) :
    (applyOps dig s ops).hash =
      s.hash.map (fun h => (h.1 ++ logicalBytes ops, h.2)) := by
  induction ops generalizing s with
  | nil =>
    show s.hash = s.hash.map (fun h => (h.1 ++ logicalBytes [], h.2))
    cases s.hash with
    | none => rfl
    | some hv =>
      show some hv = some (hv.1 ++ logicalBytes [], hv.2)
      rw [show logicalBytes [] = [] from rfl, List.append_nil]
  | cons op rest ih =>
    cases op with
    | inl data =>
      show (applyOps dig (writeInline s data) rest).hash = _
      rw [ih, writeInline_hash]
      cases h : s.hash with
      | none => rfl
      | some hv =>
        show some ((hv.1 ++ data) ++ logicalBytes rest, hv.2) =
          some (hv.1 ++ logicalBytes (SSOp.inl data :: rest), hv.2)
        rw [List.append_assoc]
        rfl
    | ext data padding =>
      show (applyOps dig (writeExternal dig s data padding) rest).hash = _
      rw [ih, writeExternal_hash]
      cases h : s.hash with
      | none => rfl
      | some hv =>
        show some ((hv.1 ++ (data ++ padding)) ++ logicalBytes rest, hv.2) =
          some (hv.1 ++ logicalBytes (SSOp.ext data padding :: rest), hv.2)
        rw [List.append_assoc]
        rfl

/-- C5.  Content-hash claim check: for a writer created with a claimed
content sha256 `C`, `done()` succeeds iff the hash of the concatenation of
all logical bytes written (inline data, and external data followed by its
padding, in call order) equals `C`; on disagreement `done()` fails with an
Integrity error. -/
theorem c5_content_hash_check (dig sha : Bytes → Bytes) (refs : Option DMap)
    (C : Bytes) (ops : List SSOp) :
    ((ssDone sha (applyOps dig (newWriter refs (some C)) ops)).isOk = true ↔
      sha (logicalBytes ops) = C) ∧
    (sha (logicalBytes ops) ≠ C →
      ssDone sha (applyOps dig (newWriter refs (some C)) ops) =
        .error .integrity) := by
  have hh : (applyOps dig (newWriter refs (some C)) ops).hash =
      some (logicalBytes ops, C) := by
    rw [applyOps_hash]
    simp [newWriter]
  unfold ssDone
  rw [flushInline_hash, hh]
  dsimp only
  constructor
  · by_cases h : sha (logicalBytes ops) = C
    · simp [h, Except.isOk, Except.toBool]
    · simp [h, Except.isOk, Except.toBool]
  · intro hne
    simp [hne]

/-- Witness for C5 at a concrete input: with the identity as the "hash", a
single inline write of `[7]` passes the check when the claim is `[7]` and
fails with Integrity when the claim is `[8]`. -/
theorem c5_content_hash_check_witness :
    (ssDone (fun l => l)
      (applyOps (fun _ => []) (newWriter none (some [7])) [.inl [7]])).isOk
        = true ∧
    ssDone (fun l => l)
      (applyOps (fun _ => []) (newWriter none (some [8])) [.inl [7]]) =
        .error .integrity :=
  ⟨((c5_content_hash_check (fun _ => []) (fun l => l) none [7] [.inl [7]]).1).mpr
      (by decide),
   (c5_content_hash_check (fun _ => []) (fun l => l) none [8] [.inl [7]]).2
      (by decide)⟩

/-! ## C1: the split-stream round trip -/

/-- C1.  The round-trip claim fails: when `write_external` is called with
non-empty padding while the pending inline buffer is empty, `flush_inline`
takes the early exit and the padding vector is dropped without ever being
written, so `cat` reconstructs the external payload without the padding.
Concretely, the session `[write_external([1], padding=[2])]` has logical
bytes `[1, 2]`, but writing it out (object digests modelled as 32 zero
bytes) and reading it back with a loader returning the stored object bytes
yields only `[1]`. -/
theorem c1_padding_lost_eval :
    (match ssDone (fun l => l)
        (applyOps (fun _ => List.replicate 32 0) (newWriter none none)
          [SSOp.ext [1] [2]]) with
     | .ok stream =>
       match readerNew stream with
       | .ok (_, st) => catF (fun _ => [1]) 10 st
       | .error _ => none
     | .error _ => none) = some (.ok [1]) ∧
    logicalBytes [SSOp.ext [1] [2]] = [1, 2] ∧
    ¬ ([1] : Bytes) = logicalBytes [SSOp.ext [1] [2]] := by
  refine ⟨?_, by decide, by decide⟩
  decide

/-! ## C10: the padding-discard assertion -/

/-- C10.  The reader's `read_exact` panics only through the `assert!(size <=
512)` in `discard_padding`: whenever `stored_size - actual_size ≤ 512` no
panic is possible, and when the next frame is an external reference with
`actual_size < stored_size` and a padding size exceeding 512 bytes, the call
aborts (panics) instead of returning an error. -/
theorem c10_padding_assert :
    (∀ (s : ReaderState) (a st : Nat), st - a ≤ 512 →
      readExact s a st ≠ .panics) ∧
    (∀ (s : ReaderState) (a st : Nat), s.inlineBytes = 0 →
      8 ≤ s.data.length → leVal (s.data.take 8) = 0 →
      32 ≤ (s.data.drop 8).length → a < st → 512 < st - a →
      readExact s a st = .panics) := by
  have hdp : ∀ (s : ReaderState) (size : Nat), size ≤ 512 →
      discardPadding s size ≠ .panics := by
    intro s size h
    unfold discardPadding
    rw [if_pos h]
    cases hec : ensureChunk false false size s with
    | error e => simp
    | ok w =>
      dsimp only
      split <;> simp
  constructor
  · intro s a st hle
    unfold readExact
    cases hec : ensureChunk false true st s with
    | error e => simp
    | ok v =>
      obtain ⟨ct, s'⟩ := v
      cases ct with
      | eof => simp
      | inl =>
        dsimp only
        split <;> simp
      | ext id =>
        dsimp only
        split
        · cases hd : discardPadding s' (st - a) with
          | panics => exact absurd hd (hdp s' (st - a) hle)
          | err e => simp
          | ok s'' => simp
        · simp
  · intro s a st h0 h8 hz h32 hlt hbig
    have hdata : ¬ s.data = [] := by
      intro h
      rw [h] at h8
      simp at h8
    have hlen : ¬ s.data.length < 8 := by omega
    have hrest : ¬ (s.data.drop 8).length < 32 := by omega
    have hchunk : ensureChunk false true st s =
        .ok (.ext ((s.data.drop 8).take 32), ⟨0, (s.data.drop 8).drop 32⟩) := by
      unfold ensureChunk readU64le
      rw [if_pos h0, if_neg hdata, if_neg hlen]
      simp only [hz, if_pos rfl, if_neg hrest]
      rfl
    unfold readExact
    rw [hchunk]
    dsimp only
    rw [if_pos hlt]
    unfold discardPadding
    rw [if_neg (by omega)]

/-- Witness for C10 at concrete inputs: an empty reader never panics for a
zero-padding read, and a reader positioned at an external frame with
`stored_size - actual_size = 513` panics. -/
theorem c10_padding_assert_witness :
    readExact ⟨0, []⟩ 0 0 ≠ .panics ∧
    readExact ⟨0, le64 0 ++ List.replicate 32 0⟩ 0 513 = .panics :=
  ⟨c10_padding_assert.1 ⟨0, []⟩ 0 0 (by decide),
   c10_padding_assert.2 ⟨0, le64 0 ++ List.replicate 32 0⟩ 0 513 (by decide)
     (by decide) (by decide) (by decide) (by decide) (by decide)⟩

/-! ## Digest map (src/splitstream.rs, `DigestMap`)

Both `lookup` and `insert` call `Vec::binary_search_by_key` on the entries
vector.  On a vector sorted by key — the invariant proved below, maintained
by `insert` from the empty map — binary search returns `Ok(idx)` exactly
when an entry with the key is present at `idx`, and `Err(idx)` with `idx`
the unique sorted insertion point otherwise; the model uses that
specification directly.  Keys are compared as Rust compares `[u8; 32]`,
i.e. lexicographically, which is the `List Nat` linear order. -/

/-- Insertion of an entry at the `Err(idx)` position that
`binary_search_by_key` reports on a key-sorted vector: directly before the
first entry with a larger key.  Generic in the value type because both the
digest map (values: verity digests) and directory entries (values: inodes)
are vectors sorted by a byte-string key. -/
def insertSorted {β : Type} : List (Bytes × β) → Bytes → β → List (Bytes × β)
  | [], body, verity => [(body, verity)]
  | e :: es, body, verity =>
    if body < e.1 then (body, verity) :: e :: es
    else e :: insertSorted es body verity

/-- Model of `DigestMap::lookup`: the verity digest of the entry whose body
matches, if any. -/
def dmLookup (m : DMap) (body : Bytes) : Option Bytes :=
  (m.find? (fun e => e.1 = body)).map (fun e => e.2)

/-- Model of `DigestMap::insert`: when an entry with this body already
exists, `assert_eq!(self.map[idx].verity, *verity)` panics unless the
stored verity agrees (`none` models the panic); otherwise the entry is
inserted at the sorted position. -/
def dmInsert (m : DMap) (body verity : Bytes) : Option DMap :=
  match dmLookup m body with
  | some v => if v = verity then some m else none
  | none => some (insertSorted m body verity)

/-- Fold a sequence of `insert` calls over a map, propagating the panic. -/
def dmInsertAll : List (Bytes × Bytes) → DMap → Option DMap
  | [], m => some m
  | e :: es, m =>
    match dmInsert m e.1 e.2 with
    | some m' => dmInsertAll es m'
    | none => none

/-- Lookup misses exactly when no entry has the body as its key. -/
theorem dmLookup_eq_none {m : DMap} {body : Bytes} :
    dmLookup m body = none ↔ ∀ e ∈ m, e.1 ≠ body := by
  unfold dmLookup
  rw [Option.map_eq_none', List.find?_eq_none]
  constructor
  · intro h e he
    have := h e he
    simpa using this
  · intro h e he
    simpa using h e he

/-- Membership in a sorted insertion result. -/
theorem mem_insertSorted {β : Type} {m : List (Bytes × β)} {body : Bytes}
    {verity : β} {x : Bytes × β} :
    x ∈ insertSorted m body verity ↔ x = (body, verity) ∨ x ∈ m := by
  induction m with
  | nil => simp [insertSorted]
  | cons e es ih =>
    unfold insertSorted
    split
    · simp
    · simp only [List.mem_cons, ih]
      tauto

/-- Sorted insertion of an absent key preserves strict sortedness. -/
theorem insertSorted_pairwise {β : Type} {m : List (Bytes × β)} {body : Bytes}
    {verity : β}
    (hs : m.Pairwise (fun a b => a.1 < b.1))
    (habs : ∀ e ∈ m, e.1 ≠ body) :
    (insertSorted m body verity).Pairwise (fun a b => a.1 < b.1) := by
  induction m with
  | nil => simp [insertSorted]
  | cons e es ih =>
    rw [List.pairwise_cons] at hs
    have hne : e.1 ≠ body := habs e (by simp)
    have habs' : ∀ x ∈ es, x.1 ≠ body := by
      intro x hx
      exact habs x (by simp [hx])
    unfold insertSorted
    split
    · rename_i hlt
      rw [List.pairwise_cons]
      constructor
      · intro x hx
        rcases List.mem_cons.1 hx with h | h
        · rw [h]; exact hlt
        · exact lt_trans hlt (hs.1 x h)
      · exact List.Pairwise.cons hs.1 hs.2
    · rename_i hnlt
      have hgt : e.1 < body := by
        rcases lt_trichotomy body e.1 with h | h | h
        · exact absurd h hnlt
        · exact absurd h.symm hne
        · exact h
      rw [List.pairwise_cons]
      constructor
      · intro x hx
        rcases mem_insertSorted.1 hx with h | h
        · rw [h]; exact hgt
        · exact hs.1 x h
      · exact ih hs.2 habs'

/-- Looking up the freshly inserted key returns the new verity. -/
theorem dmLookup_insertSorted_self {m : DMap} {body verity : Bytes}
    (habs : dmLookup m body = none) :
    dmLookup (insertSorted m body verity) body = some verity := by
  induction m with
  | nil => simp [insertSorted, dmLookup]
  | cons e es ih =>
    have hne : e.1 ≠ body := (dmLookup_eq_none.1 habs) e (by simp)
    have habs' : dmLookup es body = none := by
      rw [dmLookup_eq_none]
      intro x hx
      exact (dmLookup_eq_none.1 habs) x (by simp [hx])
    unfold insertSorted
    split
    · simp [dmLookup]
    · unfold dmLookup
      rw [List.find?_cons_of_neg _ (by simpa using hne)]
      exact ih habs'

/-- Inserting an absent key does not disturb any existing lookup. -/
theorem dmLookup_insertSorted_other {m : DMap} {body verity k v : Bytes}
    (habs : dmLookup m body = none)
    (h : dmLookup m k = some v) :
    dmLookup (insertSorted m body verity) k = some v := by
  have hkb : k ≠ body := by
    intro he
    rw [he] at h
    rw [habs] at h
    cases h
  induction m with
  | nil => simp [dmLookup] at h
  | cons e es ih =>
    have habs' : dmLookup es body = none := by
      rw [dmLookup_eq_none]
      intro x hx
      exact (dmLookup_eq_none.1 habs) x (by simp [hx])
    unfold insertSorted
    split
    · unfold dmLookup
      rw [List.find?_cons_of_neg _ (by simpa using hkb.symm)]
      exact h
    · by_cases hek : e.1 = k
      · unfold dmLookup at h ⊢
        rw [List.find?_cons_of_pos _ (by simpa using hek)] at h
        rw [List.find?_cons_of_pos _ (by simpa using hek)]
        exact h
      · unfold dmLookup at h ⊢
        rw [List.find?_cons_of_neg _ (by simpa using hek)] at h
        rw [List.find?_cons_of_neg _ (by simpa using hek)]
        exact ih habs' h

/-- Specification of a successful run of `insert` calls: the map stays
sorted, previously recorded lookups survive, and every inserted pair is
recorded. -/
theorem dmInsertAll_spec (ops : List (Bytes × Bytes)) (m0 m : DMap)
    (h : dmInsertAll ops m0 = some m)
    (hs : m0.Pairwise (fun a b => a.1 < b.1)) :
    m.Pairwise (fun a b => a.1 < b.1) ∧
    (∀ k v, dmLookup m0 k = some v → dmLookup m k = some v) ∧
    (∀ p ∈ ops, dmLookup m p.1 = some p.2) := by
  induction ops generalizing m0 with
  | nil =>
    unfold dmInsertAll at h
    cases h
    exact ⟨hs, fun k v hv => hv, by simp⟩
  | cons e es ih =>
    unfold dmInsertAll at h
    cases hi : dmInsert m0 e.1 e.2 with
    | none => simp [hi] at h
    | some m1 =>
      simp only [hi] at h
      unfold dmInsert at hi
      cases hl : dmLookup m0 e.1 with
      | some v =>
        simp only [hl] at hi
        by_cases hv : v = e.2
        · rw [if_pos hv] at hi
          cases hi
          obtain ⟨hp, hpre, hops⟩ := ih m0 h hs
          refine ⟨hp, hpre, ?_⟩
          intro p hp'
          rcases List.mem_cons.1 hp' with h' | h'
          · rw [h']
            exact hpre e.1 e.2 (by rw [hl, hv])
          · exact hops p h'
        · rw [if_neg hv] at hi
          cases hi
      | none =>
        simp only [hl] at hi
        cases hi
        have hs1 := @insertSorted_pairwise Bytes m0 e.1 e.2 hs
          (dmLookup_eq_none.1 hl)
        obtain ⟨hp, hpre, hops⟩ := ih _ h hs1
        refine ⟨hp, ?_, ?_⟩
        · intro k v hv
          exact hpre k v (dmLookup_insertSorted_other hl hv)
        · intro p hp'
          rcases List.mem_cons.1 hp' with h' | h'
          · rw [h']
            exact hpre e.1 e.2 (dmLookup_insertSorted_self hl)
          · exact hops p h'

/-- C9.  Digest-map order invariant: any map built by a (successful)
sequence of `insert` calls from the empty map is strictly sorted by body
sha256 (hence the bodies are distinct), `lookup` returns the verity digest
recorded for every inserted body, and `SplitStreamWriter::new` serializes
the header entries in exactly that sorted vector order. -/
theorem c9_digest_map_invariant (ops : List (Bytes × Bytes)) (m : DMap)
    (h : dmInsertAll ops [] = some m) :
    m.Pairwise (fun a b => a.1 < b.1) ∧
    (∀ p ∈ ops, dmLookup m p.1 = some p.2) ∧
    (newWriter (some m) none).out =
      le64 m.length ++ m.flatMap (fun e => e.1 ++ e.2) := by
  obtain ⟨hp, _, hops⟩ := dmInsertAll_spec ops [] m h (by simp)
  exact ⟨hp, hops, rfl⟩

/-- Witness for C9: inserting bodies `[1]` then `[0]` produces the sorted
map `[([0], [3]), ([1], [2])]` and both lookups return the recorded
verity digests. -/
theorem c9_digest_map_invariant_witness :
    dmLookup [([0], [3]), ([1], [2])] [1] = some [2] ∧
    dmLookup [([0], [3]), ([1], [2])] [0] = some [3] :=
  ⟨(c9_digest_map_invariant [([1], [2]), ([0], [3])]
      [([0], [3]), ([1], [2])] (by decide)).2.1 ([1], [2]) (by simp),
   (c9_digest_map_invariant [([1], [2]), ([0], [3])]
      [([0], [3]), ([1], [2])] (by decide)).2.1 ([0], [3]) (by simp)⟩

/-! ## Object store: ensure_object (src/repository.rs) -/

/-- Error kind of a value returned by `ensure_object`: every fallible step
in its body is an I/O operation propagated with `?`; there is no Integrity
error return anywhere in the function. -/
inductive ObjErr where
  | ioFail
deriving DecidableEq, Repr

/-- Result of an `ensure_object` run: the digest on success, a returned
error, or an abort through the failed `assert!`. -/
inductive EnsureResult where
  | ok (digest : Bytes)
  | err (e : ObjErr)
  | panics
deriving DecidableEq, Repr

/-- Recognizer for a returned error (as opposed to a panic or success). -/
def EnsureResult.isErrB : EnsureResult → Bool
  | .err _ => true
  | _ => false

/-- Environment of one `ensure_object` run: whether the object file is
already present and readable (`accessat(.., READ_OK)`), whether each
fallible syscall succeeds, the digest the measure ioctl reports after
enabling verity, and how the final `linkat` behaves. -/
structure ObjEnv where
  objectPresent : Bytes → Bool
  dirsOk : Bool
  openOk : Bool
  writeOk : Bool
  syncOk : Bool
  reopenOk : Bool
  enableOk : Bool
  measured : Bytes
  linkOk : Bool
  linkExists : Bool

/-- Model of `Repository::ensure_object`, mirroring its control flow: the
early return when the object is already present; the sequence of fallible
I/O steps (ensure_dir twice, openat with O_TMPFILE, write, fdatasync,
re-open via /proc/self/fd, the enable-verity ioctl); the double-check
`assert!(measured_digest == digest)`, which panics rather than returning;
and the `linkat` that treats `AlreadyExists` as success. -/
def ensureObject (fsv : Bytes → Bytes) (env : ObjEnv) (data : Bytes) :
    EnsureResult :=
  let digest := fsv data
  if env.objectPresent digest then .ok digest
  else if !env.dirsOk then .err .ioFail
  else if !env.openOk then .err .ioFail
  else if !env.writeOk then .err .ioFail
  else if !env.syncOk then .err .ioFail
  else if !env.reopenOk then .err .ioFail
  else if !env.enableOk then .err .ioFail
  else if env.measured ≠ digest then .panics
  else if env.linkOk then .ok digest
  else if env.linkExists then .ok digest
  else .err .ioFail

/-- C3 counterexample.  At a concrete environment where every step succeeds
but the post-enable measurement reports `[0]` while the pre-computed digest
is `[1]`, `ensure_object` aborts through the failed `assert!`; no error
value is returned to the caller, refuting the claim that the operation
fails by returning an Integrity error. -/
theorem c3_assert_not_error_cex :
    ensureObject (fun _ => [1])
      ⟨fun _ => false, true, true, true, true, true, true, [0], true, false⟩
      [] = .panics ∧
    (ensureObject (fun _ => [1])
      ⟨fun _ => false, true, true, true, true, true, true, [0], true, false⟩
      []).isErrB = false := by
  decide

/-- C3 (amended).  When the object is not already present and the directory
and open steps succeed: a write failure makes `ensure_object` return an I/O
error, and when all steps up to the measurement succeed but the re-measured
digest disagrees with the pre-computed one, the operation aborts via the
`assert!` (a panic that is always surfaced and never retried), rather than
returning an Integrity error. -/
theorem c3_measure_mismatch_panics (fsv : Bytes → Bytes) (env : ObjEnv)
    (data : Bytes)
    (hpre : env.objectPresent (fsv data) = false)
    (hdirs : env.dirsOk = true) (hopen : env.openOk = true) :
    (env.writeOk = false → ensureObject fsv env data = .err .ioFail) ∧
    (env.writeOk = true → env.syncOk = true → env.reopenOk = true →
      env.enableOk = true → env.measured ≠ fsv data →
      ensureObject fsv env data = .panics) := by
  constructor
  · intro hw
    unfold ensureObject
    simp [hpre, hdirs, hopen, hw]
  · intro hw hsync hre hen hne
    unfold ensureObject
    simp [hpre, hdirs, hopen, hw, hsync, hre, hen, hne]

/-- Witness for C3 (amended) at concrete environments: a failing write
yields a returned I/O error, and a measurement mismatch yields a panic. -/
theorem c3_measure_mismatch_panics_witness :
    ensureObject (fun _ => [1])
      ⟨fun _ => false, true, true, false, true, true, true, [1], true, false⟩
      [] = .err .ioFail ∧
    ensureObject (fun _ => [1])
      ⟨fun _ => false, true, true, true, true, true, true, [0], true, false⟩
      [] = .panics :=
  ⟨(c3_measure_mismatch_panics (fun _ => [1])
      ⟨fun _ => false, true, true, false, true, true, true, [1], true, false⟩
      [] rfl rfl rfl).1 rfl,
   (c3_measure_mismatch_panics (fun _ => [1])
      ⟨fun _ => false, true, true, true, true, true, true, [0], true, false⟩
      [] rfl rfl rfl).2 rfl rfl rfl rfl (by decide)⟩

/-! ## Garbage collection (src/repository.rs, `Repository::gc`) -/

/-- Snapshot of the repository state visible to `gc`: digests present under
`objects/`, digests decoded from the hex-named symlinks directly in
`images/` and `streams/`, digest targets reached by walking the
`images/refs/**` and `streams/refs/**` symlink trees, the per-image object
references reported by the external `composefs-info objects` inspector, and
the per-stream references enumerated by `get_object_refs` (digest-map
verity entries and external frames). -/
structure RepoState where
  objects : List Bytes
  imagesLinks : List Bytes
  streamsLinks : List Bytes
  imagesRefs : List Bytes
  streamsRefs : List Bytes
  imageRefsOf : Bytes → List Bytes
  streamRefsOf : Bytes → List Bytes

/-- Reachable set as `gc` computes it: `gc_category` seeds with the refs
targets only, then each image seed is closed over the inspector output and
each stream seed over its stream's object references. -/
def gcMark (s : RepoState) : List Bytes :=
  s.imagesRefs.flatMap (fun d => d :: s.imageRefsOf d) ++
    s.streamsRefs.flatMap (fun d => d :: s.streamRefsOf d)

/-- Lines printed as `rm ...` during a `gc` run.  `gc_category` prints one
for each hex-named category symlink whose digest is not among that
category's refs targets, and the final sweep prints one for each object not
in the computed mark set. -/
structure GcReport where
  rmImages : List Bytes
  rmStreams : List Bytes
  rmObjects : List Bytes
deriving Repr

/-- Model of `Repository::gc`: computes the mark set and the `rm` lines.
Faithfully to the code, nothing is unlinked — the function only prints what
it would remove — so the repository state is returned unchanged. -/
def gcRun (s : RepoState) : RepoState × GcReport :=
  (s,
   { rmImages := s.imagesLinks.filter (fun d => !s.imagesRefs.contains d)
     rmStreams := s.streamsLinks.filter (fun d => !s.streamsRefs.contains d)
     rmObjects := s.objects.filter (fun d => !(gcMark s).contains d) })

/-- Reachability exactly as the claim describes it: seeded from the
images/refs and streams/refs symlink targets, and closed under the object
references enumerated from each reachable image by the external inspector
and from each reachable stream's digest map and external frames. -/
def specReachable (s : RepoState) (d : Bytes) : Prop :=
  d ∈ s.imagesRefs ∨ d ∈ s.streamsRefs ∨
    (∃ i ∈ s.imagesRefs, d ∈ s.imageRefsOf i) ∨
    (∃ t ∈ s.streamsRefs, d ∈ s.streamRefsOf t)

/-- C2 counterexample.  In a repository whose only content is one
unreachable object `[1]` (no refs, no category symlinks), `gc` returns with
the object still present under `objects/`: nothing is deleted, refuting the
claim that every unreachable object has been deleted after `gc()`. -/
theorem c2_gc_deletes_nothing_cex :
    ¬ [1] ∈ gcMark
      ⟨[[1]], [], [], [], [], fun _ => [], fun _ => []⟩ ∧
    [1] ∈ (gcRun
      ⟨[[1]], [], [], [], [], fun _ => [], fun _ => []⟩).1.objects := by
  constructor
  · intro h
    simp [gcMark] at h
  · simp [gcRun]

/-- C2 (amended).  `gc` computes the reachable set exactly as the claim
describes (refs-target seeds closed one step through the image inspector
and the stream references), and it reports — but does not delete — exactly
the unreachable objects and the unreferenced category symlinks: the
repository state after `gc` is identical to the state before. -/
theorem c2_gc_marks_and_reports (s : RepoState) :
    (gcRun s).1 = s ∧
    (∀ d, d ∈ gcMark s ↔ specReachable s d) ∧
    (∀ d, d ∈ (gcRun s).2.rmObjects ↔
      d ∈ s.objects ∧ ¬ specReachable s d) ∧
    (∀ d, d ∈ (gcRun s).2.rmImages ↔
      d ∈ s.imagesLinks ∧ ¬ d ∈ s.imagesRefs) ∧
    (∀ d, d ∈ (gcRun s).2.rmStreams ↔
      d ∈ s.streamsLinks ∧ ¬ d ∈ s.streamsRefs) := by
  have hmark : ∀ d, d ∈ gcMark s ↔ specReachable s d := by
    intro d
    unfold gcMark specReachable
    simp only [List.mem_append, List.mem_flatMap, List.mem_cons]
    constructor
    · rintro (⟨i, hi, rfl | hd⟩ | ⟨t, ht, rfl | hd⟩)
      · exact Or.inl hi
      · exact Or.inr (Or.inr (Or.inl ⟨i, hi, hd⟩))
      · exact Or.inr (Or.inl ht)
      · exact Or.inr (Or.inr (Or.inr ⟨t, ht, hd⟩))
    · rintro (hd | hd | ⟨i, hi, hd⟩ | ⟨t, ht, hd⟩)
      · exact Or.inl ⟨d, hd, Or.inl rfl⟩
      · exact Or.inr ⟨d, hd, Or.inl rfl⟩
      · exact Or.inl ⟨i, hi, Or.inr hd⟩
      · exact Or.inr ⟨t, ht, Or.inr hd⟩
  refine ⟨rfl, hmark, ?_, ?_, ?_⟩
  · intro d
    show d ∈ s.objects.filter (fun d => !(gcMark s).contains d) ↔ _
    rw [List.mem_filter]
    simp [hmark d]
  · intro d
    show d ∈ s.imagesLinks.filter (fun d => !s.imagesRefs.contains d) ↔ _
    rw [List.mem_filter]
    simp
  · intro d
    show d ∈ s.streamsLinks.filter (fun d => !s.streamsRefs.contains d) ↔ _
    rw [List.mem_filter]
    simp

/-! ## Filesystem tree (src/image.rs)

Names are byte strings compared lexicographically, matching the `OsStr`
ordering Rust uses for directory entries.  `Leaf` nodes in the source are
`Rc`-shared for hardlinks; the model copies leaves instead, which is
observationally identical for every operation verified here (none of the
claims below concerns leaf refcounts). -/

/-- File and directory names as byte sequences. -/
abbrev Name := List Nat

/-- Model of `Stat` (mode, uid, gid, mtime seconds, xattrs). -/
structure StatM where
  mode : Nat
  uid : Nat
  gid : Nat
  mtimeSec : Int
  xattrs : List (Name × Bytes)
deriving DecidableEq, Repr

/-- Model of `LeafContent`. -/
inductive LeafC where
  | inlineFile (data : Bytes)
  | externalFile (digest : Bytes) (size : Nat)
  | blockDevice (rdev : Nat)
  | charDevice (rdev : Nat)
  | fifo
  | socket
  | symlinkTo (target : Name)
deriving DecidableEq, Repr

/-- Model of `Inode`: a directory with stat and ordered entries, or a
leaf. -/
inductive Inode where
  | dir (stat : StatM) (entries : List (Name × Inode))
  | leaf (stat : StatM) (content : LeafC)

/-- Three-way name comparison (`Ord::cmp` on byte strings). -/
def nameCmp (a b : Name) : Ordering :=
  if a < b then .lt else if b < a then .gt else .eq

/-- Result of `binary_search_by_key` on a vector sorted by name, to which
`find_entry` falls back: `.inl i` when the name is present at `i`, `.inr i`
when absent with `i` its insertion point.  Modelled as the linear scan with
that exact result on sorted input. -/
def sortedSearch : List (Name × Inode) → Name → Nat ⊕ Nat
  | [], _ => .inr 0
  | e :: es, name =>
    match nameCmp name e.1 with
    | .lt => .inr 0
    | .eq => .inl 0
    | .gt =>
      match sortedSearch es name with
      | .inl i => .inl (i + 1)
      | .inr i => .inr (i + 1)

/-- Model of `Directory::find_entry`: the fast path compares against the
last entry (equal: found there; greater: append position) and otherwise
falls back to binary search over the vector. -/
def findEntry (entries : List (Name × Inode)) (name : Name) : Nat ⊕ Nat :=
  match entries.getLast? with
  | none => .inr 0
  | some last =>
    match nameCmp name last.1 with
    | .eq => .inl (entries.length - 1)
    | .gt => .inr entries.length
    | .lt => sortedSearch entries name

/-- Model of `Directory::mkdir`: an existing directory entry has its stat
updated and its children kept; an existing leaf entry hits
`todo!("Trying to replace non-dir with dir!")` — a panic, modelled as
`none`; an absent name gets a fresh empty directory inserted at the
reported position.  (The Rust function returns `()`: it has no error
channel at all.) -/
def dMkdir (entries : List (Name × Inode)) (name : Name) (stat : StatM) :
    Option (List (Name × Inode)) :=
  match findEntry entries name with
  | .inl idx =>
    match entries[idx]? with
    | some (n, .dir _ sub) => some (entries.set idx (n, .dir stat sub))
    | some (_, .leaf _ _) => none
    | none => none
  | .inr idx => some (entries.insertIdx idx (name, .dir stat []))

/-- Model of `Directory::insert`: replace the inode at an existing name, or
insert a new entry at the reported position.  (`find_entry` only reports
in-range indices, so the out-of-range arm is dead; it returns the entries
unchanged.) -/
def dInsert (entries : List (Name × Inode)) (name : Name) (inode : Inode) :
    List (Name × Inode) :=
  match findEntry entries name with
  | .inl idx =>
    match entries[idx]? with
    | some (n, _) => entries.set idx (n, inode)
    | none => entries
  | .inr idx => entries.insertIdx idx (name, inode)

/-- Model of `Directory::remove`: removing a missing name is a no-op. -/
def dRemove (entries : List (Name × Inode)) (name : Name) :
    List (Name × Inode) :=
  match findEntry entries name with
  | .inl idx => entries.eraseIdx idx
  | .inr _ => entries

/-- Errors bailed by the tree-walking operations. -/
inductive FsErr where
  | notDir
  | noParent
  | notLeaf
  | noLink
  | emptyName
deriving DecidableEq, Repr

/-- Outcome of a tree operation: result, returned error, or panic. -/
inductive TOut (α : Type) where
  | ok (a : α)
  | err (e : FsErr)
  | panics

/-- Walk down parent directories as `get_parent_dir` does
(`Directory::recurse` per component: a missing component bails "Unable to
find parent directory", a leaf bails "Parent directory is not a
directory") and apply `f` to the entries of the final directory,
rebuilding the tree on the way back up. -/
def applyAt (t : Inode) (path : List Name)
    (f : List (Name × Inode) → TOut (List (Name × Inode))) : TOut Inode :=
  match t, path with
  | .dir stat entries, [] =>
    match f entries with
    | .ok es => .ok (.dir stat es)
    | .err e => .err e
    | .panics => .panics
  | .dir stat entries, name :: rest =>
    match findEntry entries name with
    | .inl idx =>
      match entries[idx]? with
      | some (n, child) =>
        match child with
        | .dir _ _ =>
          match applyAt child rest f with
          | .ok c => .ok (.dir stat (entries.set idx (n, c)))
          | .err e => .err e
          | .panics => .panics
        | .leaf _ _ => .err .notDir
      | none => .panics
    | .inr _ => .err .noParent
  | .leaf _ _, _ => .err .notDir

/-- Read-only walk to the entries of the directory at `path`, with the same
error behaviour as `applyAt`'s descent. -/
def parentEntries (t : Inode) : List Name → TOut (List (Name × Inode))
  | [] =>
    match t with
    | .dir _ es => .ok es
    | .leaf _ _ => .err .notDir
  | name :: rest =>
    match t with
    | .dir _ entries =>
      match findEntry entries name with
      | .inl idx =>
        match entries[idx]? with
        | some (_, child) =>
          match child with
          | .dir _ _ => parentEntries child rest
          | .leaf _ _ => .err .notDir
        | none => .panics
      | .inr _ => .err .noParent
    | .leaf _ _ => .err .notDir

/-- Model of `FileSystem::get_for_link`: resolve the target's parent
directory, then the final component must name a leaf (a directory bails
"Cannot hardlink to directory", a missing name bails "Attempt to hardlink
to non-existent file"; a target without a final component hits the
`todo!()`). -/
def getForLink (t : Inode) (path : List Name) : TOut (StatM × LeafC) :=
  match path.getLast? with
  | none => .panics
  | some filename =>
    match parentEntries t path.dropLast with
    | .ok entries =>
      match findEntry entries filename with
      | .inl idx =>
        match entries[idx]? with
        | some (_, .leaf st c) => .ok (st, c)
        | some (_, .dir _ _) => .err .notLeaf
        | none => .panics
      | .inr _ => .err .noLink
    | .err e => .err e
    | .panics => .panics

/-! ## Layer application (src/oci/image.rs, `process_entry`) -/

/-- Strip the `.wh.` whiteout marker (`bytes.strip_prefix(b".wh.")`). -/
def stripWh : Name → Option Name
  | 46 :: 119 :: 104 :: 46 :: rest => some rest
  | _ => none

/-- Bytes of `.wh.opq` — the tail the code compares the stripped name
against, making the full opaque marker it recognizes `.wh..wh.opq`. -/
def opqTail : Name := [46, 119, 104, 46, 111, 112, 113]

/-- Model of `oci::tar::TarItem`. -/
inductive TarItemM where
  | directory
  | leafItem (content : LeafC)
  | hardlink (target : List Name)

/-- Model of `oci::tar::TarEntry`: path as its normal components. -/
structure TarEntryM where
  path : List Name
  stat : StatM
  item : TarItemM

/-- Model of `process_entry`: resolve the parent directory of the entry's
path; when the final component strips to a whiteout, either clear the
directory (`remove_all`, when the stripped tail is `.wh.opq`) or remove
the named entry; otherwise apply the entry (mkdir for a directory —
panicking on a leaf collision —, insert for a leaf, and hardlink target
resolution from the root for a hardlink). -/
def processEntry (fs : Inode) (entry : TarEntryM) : TOut Inode :=
  match entry.path.getLast? with
  | none => .err .emptyName
  | some filename =>
    match stripWh filename with
    | some whiteout =>
      if whiteout = opqTail then
        applyAt fs entry.path.dropLast (fun _ => .ok [])
      else
        applyAt fs entry.path.dropLast (fun es => .ok (dRemove es whiteout))
    | none =>
      match entry.item with
      | .directory =>
        applyAt fs entry.path.dropLast (fun es =>
          match dMkdir es filename entry.stat with
          | some es' => .ok es'
          | none => .panics)
      | .leafItem content =>
        applyAt fs entry.path.dropLast (fun es =>
          .ok (dInsert es filename (.leaf entry.stat content)))
      | .hardlink target =>
        match applyAt fs entry.path.dropLast (fun es => .ok es) with
        | .ok _ =>
          match getForLink fs target with
          | .ok lf =>
            applyAt fs entry.path.dropLast (fun es =>
              .ok (dInsert es filename (.leaf lf.1 lf.2)))
          | .err e => .err e
          | .panics => .panics
        | .err e => .err e
        | .panics => .panics

/-- Apply a sequence of tar entries in order, short-circuiting on error or
panic (`compose_filesystem`'s per-entry loop). -/
def applyEntries (fs : Inode) : List TarEntryM → TOut Inode
  | [] => .ok fs
  | e :: es =>
    match processEntry fs e with
    | .ok fs' => applyEntries fs' es
    | .err er => .err er
    | .panics => .panics

/-- Depth-first enumeration of every path in the tree, the node itself
first and then the children in entry order — the order in which the
dumpfile writer emits lines.  Fuelled recursion: results are exact for any
fuel exceeding the tree depth. -/
def enumPaths : Nat → List Name → Inode → List (List Name)
  | 0, _, _ => []
  | _ + 1, pfx, .leaf _ _ => [pfx]
  | fuel + 1, pfx, .dir _ entries =>
    pfx :: entries.flatMap (fun e => enumPaths fuel (pfx ++ [e.1]) e.2)

/-- Follow a path through the tree (spec-side helper for relating emitted
lines to tree nodes). -/
def subtreeAt (t : Inode) : List Name → Option Inode
  | [] => some t
  | name :: rest =>
    match t with
    | .dir _ entries =>
      match entries.find? (fun e => e.1 = name) with
      | some e => subtreeAt e.2 rest
      | none => none
    | .leaf _ _ => none

/-! ## Dumpfile writer (src/dumpfile.rs) -/

/-- Nlink of a directory as `DumpfileWriter::write_dir` computes it: a fold
starting at 2 adding one per child directory. -/
def dirNlink (entries : List (Name × Inode)) : Nat :=
  entries.foldl
    (fun count ent =>
      count +
        match ent.2 with
        | .dir _ _ => 1
        | .leaf _ _ => 0)
    2

/-- Recognizer for directory inodes. -/
def isDirB : Inode → Bool
  | .dir _ _ => true
  | .leaf _ _ => false

/-- One line of dumpfile output, reduced to the fields the claims are
about: directory lines carry the escaped path and the nlink field; leaf
lines carry the path.  (Hardlink bookkeeping in `write_leaf` affects only
leaf lines and is not modelled; no claim concerns it.) -/
inductive DumpLine where
  | dirLine (path : List Name) (nlink : Nat)
  | leafLine (path : List Name)
deriving DecidableEq, Repr

/-- Sequenced concatenation of two optional line lists (out-of-fuel is
contagious). -/
def catOpt {β : Type} (a b : Option (List β)) : Option (List β) :=
  match a, b with
  | some l1, some l2 => some (l1 ++ l2)
  | _, _ => none

/-- Model of `DumpfileWriter::write_dir`: emit the directory's own line
with the computed nlink, then each child in order (directories
recursively, leaves as single lines).  Fuelled recursion; `none` means the
fuel ran out. -/
def writeInodeLines : Nat → List Name → Inode → Option (List DumpLine)
  | 0, _, _ => none
  | _ + 1, path, .leaf _ _ => some [.leafLine path]
  | fuel + 1, path, .dir _ entries =>
    match entries.foldr
        (fun e acc => catOpt (writeInodeLines fuel (path ++ [e.1]) e.2) acc)
        (some []) with
    | some ls => some (.dirLine path (dirNlink entries) :: ls)
    | none => none

/-- Well-formedness of a tree up to the given depth: every directory has
distinct child names (the sorted-vector invariant implies this; it is what
makes paths unambiguous). -/
def wfI : Nat → Inode → Bool
  | 0, _ => false
  | _ + 1, .leaf _ _ => true
  | fuel + 1, .dir _ entries =>
    entries.Pairwise (fun a b => a.1 ≠ b.1) &&
      entries.all (fun e => wfI fuel e.2)

/-! ## C4: whiteout handling -/

/-- Stat used for the concrete whiteout scenario (the values are irrelevant
to path structure). -/
def statZero : StatM := ⟨0, 0, 0, 0, []⟩

/-- The spec's whiteout scenario as tar entries: create directories `a`,
`b`, `c` with files `a/{b,c}`, `b/{a,c}`, `c/{a,c}`, then apply the
whiteouts `.wh.a`, `b/.wh..wh..opq` (the standard OCI opaque marker) and
`c/.wh.c`.  Byte values: a=97, b=98, c=99. -/
def c4Entries : List TarEntryM :=
  [⟨[[97]], statZero, .directory⟩,
   ⟨[[98]], statZero, .directory⟩,
   ⟨[[99]], statZero, .directory⟩,
   ⟨[[97], [98]], statZero, .leafItem (.inlineFile [])⟩,
   ⟨[[97], [99]], statZero, .leafItem (.inlineFile [])⟩,
   ⟨[[98], [97]], statZero, .leafItem (.inlineFile [])⟩,
   ⟨[[98], [99]], statZero, .leafItem (.inlineFile [])⟩,
   ⟨[[99], [97]], statZero, .leafItem (.inlineFile [])⟩,
   ⟨[[99], [99]], statZero, .leafItem (.inlineFile [])⟩,
   ⟨[[46, 119, 104, 46, 97]], statZero, .leafItem (.inlineFile [])⟩,
   ⟨[[98], [46, 119, 104, 46, 46, 119, 104, 46, 46, 111, 112, 113]],
     statZero, .leafItem (.inlineFile [])⟩,
   ⟨[[99], [46, 119, 104, 46, 99]], statZero, .leafItem (.inlineFile [])⟩]

/-- C4.  The whiteout claim fails on the code: `process_entry` strips
`.wh.` and compares the remainder against `.wh.opq`, so the opaque marker
it recognizes is `.wh..wh.opq`, not the standard `.wh..wh..opq` the claim
(and the OCI whiteout convention) requires.  Running the spec's scenario,
the entry `b/.wh..wh..opq` falls into the plain-whiteout branch and merely
attempts to remove a child named `.wh..opq` (a no-op), so `b`'s children
survive: the final paths are `/`, `/b`, `/b/a`, `/b/c`, `/c`, `/c/a` instead of the
claimed `/, /b, /c, /c/a`. -/
theorem c4_opaque_whiteout_eval :
    (match applyEntries (Inode.dir statZero []) c4Entries with
     | .ok fs => enumPaths 10 [] fs
     | .err _ => [[[0]]]
     | .panics => [[[1]]]) =
      [[], [[98]], [[98], [97]], [[98], [99]], [[99]], [[99], [97]]] ∧
    ([[], [[98]], [[98], [97]], [[98], [99]], [[99]], [[99], [97]]] :
        List (List Name)) ≠
      [[], [[98]], [[99]], [[99], [97]]] := by
  exact ⟨by decide, by decide⟩

/-! ## C6: mkdir semantics -/

/-- Comparison characterization: less-than case. -/
theorem nameCmp_lt {a b : Name} : nameCmp a b = .lt ↔ a < b := by
  unfold nameCmp
  split_ifs with h1 h2 <;> simp [h1]

/-- Comparison characterization: greater-than case. -/
theorem nameCmp_gt {a b : Name} : nameCmp a b = .gt ↔ b < a := by
  unfold nameCmp
  split_ifs with h1 h2
  · simp [lt_asymm h1]
  · simp [h2]
  · simp [h2]

/-- Comparison characterization: equality case. -/
theorem nameCmp_eq {a b : Name} : nameCmp a b = .eq ↔ a = b := by
  unfold nameCmp
  split_ifs with h1 h2
  · simp [ne_of_lt h1]
  · simp [ne_of_gt h2]
  · have : a = b := le_antisymm (not_lt.1 h2) (not_lt.1 h1)
    simp [this]

/-- In a sorted vector every key is at most the last entry's key. -/
theorem sorted_le_getLast {entries : List (Name × Inode)}
    {last : Name × Inode}
    (hs : entries.Pairwise (fun a b => a.1 < b.1))
    (hl : entries.getLast? = some last) :
    ∀ e ∈ entries, e.1 ≤ last.1 := by
  intro e he
  rw [List.getLast?_eq_getElem?] at hl
  obtain ⟨i, hilen, hie⟩ := List.mem_iff_getElem.1 he
  have hie2 : entries[i]? = some e := by
    rw [List.getElem?_eq_getElem hilen, hie]
  rcases lt_or_eq_of_le (by omega : i ≤ entries.length - 1) with h | h
  · have hjlen : entries.length - 1 < entries.length := by omega
    have hr := List.pairwise_iff_getElem.1 hs i (entries.length - 1)
      hilen hjlen h
    have hje2 : entries[entries.length - 1] = last := by
      rw [List.getElem?_eq_getElem hjlen] at hl
      injection hl
    rw [hie, hje2] at hr
    exact le_of_lt hr
  · rw [h] at hie2
    rw [hie2] at hl
    injection hl with hh
    rw [hh]

/-- `sortedSearch` finds a present key at its index (sorted vectors have at
most one entry per key). -/
theorem sortedSearch_present {entries : List (Name × Inode)} {name : Name}
    {node : Inode} {i : Nat}
    (hs : entries.Pairwise (fun a b => a.1 < b.1))
    (hi : entries[i]? = some (name, node)) :
    sortedSearch entries name = .inl i := by
  induction entries generalizing i with
  | nil => simp at hi
  | cons e es ih =>
    rw [List.pairwise_cons] at hs
    cases hcmp : nameCmp name e.1 with
    | lt =>
      exfalso
      have hlt := nameCmp_lt.1 hcmp
      cases i with
      | zero =>
        rw [List.getElem?_cons_zero] at hi
        injection hi with he
        rw [he] at hlt
        exact lt_irrefl _ hlt
      | succ j =>
        rw [List.getElem?_cons_succ] at hi
        have h2 := hs.1 _ (List.getElem?_mem hi)
        exact absurd hlt (lt_asymm h2)
    | eq =>
      have heq := nameCmp_eq.1 hcmp
      cases i with
      | zero => simp [sortedSearch, hcmp]
      | succ j =>
        exfalso
        rw [List.getElem?_cons_succ] at hi
        have h2 := hs.1 _ (List.getElem?_mem hi)
        rw [← heq] at h2
        exact lt_irrefl _ h2
    | gt =>
      have hgt := nameCmp_gt.1 hcmp
      cases i with
      | zero =>
        exfalso
        rw [List.getElem?_cons_zero] at hi
        injection hi with he
        rw [he] at hgt
        exact lt_irrefl _ hgt
      | succ j =>
        rw [List.getElem?_cons_succ] at hi
        simp [sortedSearch, hcmp, ih hs.2 hi]

/-- `sortedSearch` reports the number of smaller keys as the insertion
point for an absent key. -/
theorem sortedSearch_absent {entries : List (Name × Inode)} {name : Name}
    (hs : entries.Pairwise (fun a b => a.1 < b.1))
    (habs : ∀ e ∈ entries, e.1 ≠ name) :
    sortedSearch entries name =
      .inr (entries.countP (fun e => decide (e.1 < name))) := by
  induction entries with
  | nil => rfl
  | cons e es ih =>
    rw [List.pairwise_cons] at hs
    have hne : e.1 ≠ name := habs e (by simp)
    have habs' : ∀ x ∈ es, x.1 ≠ name := fun x hx => habs x (by simp [hx])
    cases hcmp : nameCmp name e.1 with
    | lt =>
      have hlt := nameCmp_lt.1 hcmp
      have hz : es.countP (fun e => decide (e.1 < name)) = 0 := by
        rw [List.countP_eq_zero]
        intro x hx
        simp only [decide_eq_true_eq]
        exact not_lt.2 (le_of_lt (lt_trans hlt (hs.1 x hx)))
      simp [sortedSearch, hcmp, List.countP_cons, hz, lt_asymm hlt]
    | eq => exact absurd (nameCmp_eq.1 hcmp).symm hne
    | gt =>
      have hgt := nameCmp_gt.1 hcmp
      simp [sortedSearch, hcmp, ih hs.2 habs', List.countP_cons, hgt]

/-- The `find_entry` fast path agrees: a present key is found at its index. -/
theorem findEntry_present {entries : List (Name × Inode)} {name : Name}
    {node : Inode} {i : Nat}
    (hs : entries.Pairwise (fun a b => a.1 < b.1))
    (hi : entries[i]? = some (name, node)) :
    findEntry entries name = .inl i := by
  cases hlast : entries.getLast? with
  | none =>
    rw [List.getLast?_eq_none_iff.mp hlast] at hi
    simp at hi
  | some last =>
    obtain ⟨hilen, hie⟩ := List.getElem?_eq_some.1 hi
    cases hcmp : nameCmp name last.1 with
    | eq =>
      have heq := nameCmp_eq.1 hcmp
      have hieq : i = entries.length - 1 := by
        by_contra hne
        have hlt : i < entries.length - 1 := by omega
        have hjlen : entries.length - 1 < entries.length := by omega
        have hr := List.pairwise_iff_getElem.1 hs i (entries.length - 1)
          hilen hjlen hlt
        rw [hie] at hr
        rw [List.getLast?_eq_getElem?] at hlast
        have hje : entries[entries.length - 1] = last := by
          rw [List.getElem?_eq_getElem hjlen] at hlast
          injection hlast
        rw [hje] at hr
        rw [← heq] at hr
        exact lt_irrefl _ hr
      simp only [findEntry, hlast, hcmp, hieq]
    | gt =>
      exfalso
      have hgt := nameCmp_gt.1 hcmp
      have hmem : (name, node) ∈ entries := List.getElem?_mem hi
      have := sorted_le_getLast hs hlast (name, node) hmem
      exact absurd hgt (not_lt.2 this)
    | lt =>
      simp only [findEntry, hlast, hcmp]
      exact sortedSearch_present hs hi

/-- `find_entry` (fast path included) reports the count of smaller keys as
the insertion point for an absent key. -/
theorem findEntry_absent {entries : List (Name × Inode)} {name : Name}
    (hs : entries.Pairwise (fun a b => a.1 < b.1))
    (habs : ∀ e ∈ entries, e.1 ≠ name) :
    findEntry entries name =
      .inr (entries.countP (fun e => decide (e.1 < name))) := by
  cases hlast : entries.getLast? with
  | none =>
    rw [List.getLast?_eq_none_iff.mp hlast]
    rfl
  | some last =>
    have hlmem := List.mem_of_mem_getLast? hlast
    cases hcmp : nameCmp name last.1 with
    | eq => exact absurd (nameCmp_eq.1 hcmp).symm (habs last hlmem)
    | gt =>
      have hgt := nameCmp_gt.1 hcmp
      have hcount : entries.countP (fun e => decide (e.1 < name)) =
          entries.length := by
        rw [List.countP_eq_length]
        intro e he
        simp only [decide_eq_true_eq]
        exact lt_of_le_of_lt (sorted_le_getLast hs hlast e he) hgt
      simp only [findEntry, hlast, hcmp, hcount]
    | lt =>
      simp only [findEntry, hlast, hcmp]
      exact sortedSearch_absent hs habs

/-- Inserting at the counted position coincides with sorted insertion. -/
theorem insertIdx_countP_eq_insertSorted {β : Type} {l : List (Bytes × β)}
    {k : Bytes} {v : β}
    (hs : l.Pairwise (fun a b => a.1 < b.1))
    (habs : ∀ e ∈ l, e.1 ≠ k) :
    l.insertIdx (l.countP (fun e => decide (e.1 < k))) (k, v) =
      insertSorted l k v := by
  induction l with
  | nil => rfl
  | cons e es ih =>
    rw [List.pairwise_cons] at hs
    have hne : e.1 ≠ k := habs e (by simp)
    have habs' : ∀ x ∈ es, x.1 ≠ k := fun x hx => habs x (by simp [hx])
    by_cases hlt : k < e.1
    · have hz : es.countP (fun e => decide (e.1 < k)) = 0 := by
        rw [List.countP_eq_zero]
        intro x hx
        simp only [decide_eq_true_eq]
        exact not_lt.2 (le_of_lt (lt_trans hlt (hs.1 x hx)))
      rw [List.countP_cons]
      simp only [decide_eq_true_eq, hz, lt_asymm hlt, if_false]
      rw [List.insertIdx_zero]
      unfold insertSorted
      rw [if_pos hlt]
    · have hgt : e.1 < k := by
        rcases lt_trichotomy e.1 k with h | h | h
        · exact h
        · exact absurd h hne
        · exact absurd h hlt
      rw [List.countP_cons]
      simp only [decide_eq_true_eq, hgt, if_true]
      rw [List.insertIdx_succ_cons]
      unfold insertSorted
      rw [if_neg hlt, ih hs.2 habs']

/-- C6.  On a sorted directory, `mkdir` on an existing directory entry
replaces that entry's stat while keeping its children and every other
entry; `mkdir` on an existing leaf panics through
`todo!("Trying to replace non-dir with dir!")` — the Rust function returns
`()` and has no error channel, so no error is returned to the caller; and
`mkdir` on an absent name inserts a fresh empty directory at the sorted
position, preserving sortedness. -/
theorem c6_mkdir_semantics (entries : List (Name × Inode)) (name : Name)
    (stat : StatM)
    (hs : entries.Pairwise (fun a b => a.1 < b.1)) :
    (∀ (i : Nat) (st0 : StatM) (sub : List (Name × Inode)),
      entries[i]? = some (name, Inode.dir st0 sub) →
      dMkdir entries name stat =
        some (entries.set i (name, Inode.dir stat sub))) ∧
    (∀ (i : Nat) (st0 : StatM) (c : LeafC),
      entries[i]? = some (name, Inode.leaf st0 c) →
      dMkdir entries name stat = none) ∧
    ((∀ e ∈ entries, e.1 ≠ name) →
      dMkdir entries name stat =
        some (insertSorted entries name (Inode.dir stat [])) ∧
      (insertSorted entries name (Inode.dir stat [])).Pairwise
        (fun a b => a.1 < b.1)) := by
  refine ⟨?_, ?_, ?_⟩
  · intro i st0 sub hi
    unfold dMkdir
    simp only [findEntry_present hs hi, hi]
  · intro i st0 c hi
    unfold dMkdir
    simp only [findEntry_present hs hi, hi]
  · intro habs
    constructor
    · unfold dMkdir
      simp only [findEntry_absent hs habs]
      rw [insertIdx_countP_eq_insertSorted hs habs]
    · exact insertSorted_pairwise hs habs

/-- C6 counterexample.  `mkdir` over a directory whose only entry is the
leaf `a` collides with that leaf and panics (the `todo!`): the result is
the panic outcome, not a returned error — indeed `Directory::mkdir`
returns `()`, so it cannot return an error at all. -/
theorem c6_mkdir_leaf_panics_cex :
    (dMkdir [([97], Inode.leaf statZero .fifo)] [97] statZero).isNone
      = true := by
  decide

/-- Witness for C6 at a concrete sorted directory `[a ↦ dir, b ↦ leaf]`:
mkdir on `a` updates the stat keeping children, mkdir on `b` panics, and
mkdir on the absent `c` appends the new empty directory in sorted
position. -/
theorem c6_mkdir_semantics_witness :
    dMkdir [([97], Inode.dir statZero []), ([98], Inode.leaf statZero .fifo)]
        [97] ⟨1, 2, 3, 4, []⟩ =
      some [([97], Inode.dir ⟨1, 2, 3, 4, []⟩ []),
            ([98], Inode.leaf statZero .fifo)] ∧
    dMkdir [([97], Inode.dir statZero []), ([98], Inode.leaf statZero .fifo)]
        [98] statZero = none ∧
    dMkdir [([97], Inode.dir statZero []), ([98], Inode.leaf statZero .fifo)]
        [99] statZero =
      some [([97], Inode.dir statZero []), ([98], Inode.leaf statZero .fifo),
            ([99], Inode.dir statZero [])] :=
  ⟨(c6_mkdir_semantics _ [97] ⟨1, 2, 3, 4, []⟩
      (by simp [List.pairwise_cons]; decide)).1 0 statZero [] rfl,
   (c6_mkdir_semantics _ [98] statZero
      (by simp [List.pairwise_cons]; decide)).2.1 1 statZero .fifo rfl,
   ((c6_mkdir_semantics _ [99] statZero
      (by simp [List.pairwise_cons]; decide)).2.2 (by decide)).1⟩

/-! ## C7: directory nlink in the dumpfile -/

/-- The nlink fold, generalized over its start value, counts the directory
children. -/
theorem dirNlink_fold (entries : List (Name × Inode)) :
    ∀ n : Nat,
      entries.foldl
        (fun count ent =>
          count +
            match ent.2 with
            | .dir _ _ => 1
            | .leaf _ _ => 0)
        n = n + entries.countP (fun e => isDirB e.2) := by
  induction entries with
  | nil => intro n; simp
  | cons e es ih =>
    intro n
    rw [List.foldl_cons, ih, List.countP_cons]
    cases h : e.2
    all_goals simp [isDirB, h]
    all_goals omega

/-- The fold in `write_dir` computes `2 + (number of child directories)`,
which is what the claim states. -/
theorem dirNlink_eq (entries : List (Name × Inode)) :
    dirNlink entries = 2 + entries.countP (fun e => isDirB e.2) := by
  unfold dirNlink
  rw [dirNlink_fold]

/-- With distinct child names, `find?` returns exactly the member entry. -/
theorem find?_of_distinct {entries : List (Name × Inode)} {e : Name × Inode}
    (hd : entries.Pairwise (fun a b => a.1 ≠ b.1)) (he : e ∈ entries) :
    entries.find? (fun x => x.1 = e.1) = some e := by
  induction entries with
  | nil => cases he
  | cons f fs ih =>
    rw [List.pairwise_cons] at hd
    rcases List.mem_cons.1 he with h | h
    · subst h
      rw [List.find?_cons_of_pos _ (by simp)]
    · have hne : f.1 ≠ e.1 := hd.1 e h
      rw [List.find?_cons_of_neg _ (by simpa using hne)]
      exact ih hd.2 h

/-- Membership in the sequenced concatenation of per-entry line lists. -/
theorem foldrSeq_mem {α β : Type} (g : α → Option (List β)) :
    ∀ (l : List α) (ls : List β) (x : β),
      l.foldr (fun e acc => catOpt (g e) acc) (some []) = some ls →
      x ∈ ls → ∃ e ∈ l, ∃ le, g e = some le ∧ x ∈ le := by
  intro l
  induction l with
  | nil =>
    intro ls x hf hx
    rw [List.foldr_nil] at hf
    injection hf with hf
    rw [← hf] at hx
    cases hx
  | cons e es ih =>
    intro ls x hf hx
    rw [List.foldr_cons] at hf
    cases h1 : g e with
    | none => rw [h1] at hf; simp [catOpt] at hf
    | some l1 =>
      rw [h1] at hf
      cases h2 : es.foldr (fun e acc => catOpt (g e) acc) (some []) with
      | none => rw [h2] at hf; simp [catOpt] at hf
      | some l2 =>
        rw [h2] at hf
        unfold catOpt at hf
        injection hf with hf
        rw [← hf] at hx
        rcases List.mem_append.1 hx with h | h
        · exact ⟨e, by simp, l1, h1, h⟩
        · obtain ⟨e', he', le, hle, hxle⟩ := ih l2 x h2 h
          exact ⟨e', by simp [he'], le, hle, hxle⟩

/-- Unpack well-formedness of a directory node. -/
theorem wfI_dir {fuel : Nat} {st : StatM} {entries : List (Name × Inode)}
    (h : wfI (fuel + 1) (.dir st entries) = true) :
    entries.Pairwise (fun a b => a.1 ≠ b.1) ∧
    ∀ e ∈ entries, wfI fuel e.2 = true := by
  unfold wfI at h
  rw [Bool.and_eq_true] at h
  constructor
  · exact of_decide_eq_true h.1
  · intro e he
    exact List.all_eq_true.1 h.2 e he

/-- Every directory line `write_dir` emits corresponds to the directory
node of the tree at its path, and its nlink field is the fold over that
node's children. -/
theorem writeLines_dirLine_spec :
    ∀ (fuel : Nat) (t : Inode) (pfx : List Name) (lines : List DumpLine),
      wfI fuel t = true →
      writeInodeLines fuel pfx t = some lines →
      ∀ (p : List Name) (n : Nat), DumpLine.dirLine p n ∈ lines →
        ∃ q st es, p = pfx ++ q ∧
          subtreeAt t q = some (.dir st es) ∧ n = dirNlink es := by
  intro fuel
  induction fuel with
  | zero =>
    intro t pfx lines hwf
    simp [wfI] at hwf
  | succ fuel ih =>
    intro t pfx lines hwf hl p n hp
    cases t with
    | leaf st c =>
      simp only [writeInodeLines] at hl
      injection hl with hl
      rw [← hl] at hp
      simp at hp
    | dir st entries =>
      obtain ⟨hdist, hwfc⟩ := wfI_dir hwf
      simp only [writeInodeLines] at hl
      cases hf : entries.foldr
          (fun e acc => catOpt (writeInodeLines fuel (pfx ++ [e.1]) e.2) acc)
          (some []) with
      | none => rw [hf] at hl; cases hl
      | some ls =>
        rw [hf] at hl
        injection hl with hl
        rw [← hl] at hp
        rcases List.mem_cons.1 hp with h | h
        · injection h with h1 h2
          refine ⟨[], st, entries, by simp [h1], rfl, h2⟩
        · obtain ⟨e, he, le, hle, hxle⟩ :=
            foldrSeq_mem (fun e => writeInodeLines fuel (pfx ++ [e.1]) e.2)
              entries ls _ hf h
          obtain ⟨q', st', es', hp', hsub', hn'⟩ :=
            ih e.2 (pfx ++ [e.1]) le (hwfc e he) hle p n hxle
          refine ⟨e.1 :: q', st', es', ?_, ?_, hn'⟩
          · rw [hp', List.append_assoc]
            rfl
          · simp only [subtreeAt]
            rw [find?_of_distinct hdist he]
            exact hsub'

/-- C7.  Directory nlink: for every directory line emitted by the dumpfile
writer over a well-formed tree — the root included — the nlink field equals
2 plus the number of the directory's immediate children whose inode is a
directory. -/
theorem c7_dir_nlink (fuel : Nat) (fs : Inode) (lines : List DumpLine)
    (hwf : wfI fuel fs = true)
    (hl : writeInodeLines fuel [] fs = some lines) :
    ∀ (p : List Name) (n : Nat), DumpLine.dirLine p n ∈ lines →
      ∃ st es, subtreeAt fs p = some (Inode.dir st es) ∧
        n = 2 + es.countP (fun e => isDirB e.2) := by
  intro p n hp
  obtain ⟨q, st, es, hpq, hsub, hn⟩ :=
    writeLines_dirLine_spec fuel fs [] lines hwf hl p n hp
  rw [List.nil_append] at hpq
  refine ⟨st, es, ?_, ?_⟩
  · rw [hpq]
    exact hsub
  · rw [hn, dirNlink_eq]

/-- Witness for C7 at a concrete tree with one subdirectory and one leaf:
the root line carries nlink 3 = 2 + 1. -/
theorem c7_dir_nlink_witness :
    ∃ st es,
      subtreeAt
          (Inode.dir statZero
            [([97], Inode.dir statZero []), ([98], Inode.leaf statZero .fifo)])
          [] = some (Inode.dir st es) ∧
      3 = 2 + es.countP (fun e => isDirB e.2) :=
  c7_dir_nlink 2
    (Inode.dir statZero
      [([97], Inode.dir statZero []), ([98], Inode.leaf statZero .fifo)])
    [DumpLine.dirLine [] 3, DumpLine.dirLine [[97]] 2, DumpLine.leafLine [[98]]]
    (by decide) (by decide) [] 3 (by decide)

/-! ## C8: dumpfile field escaping (src/dumpfile.rs, `write_escaped`) -/

/-- Lowercase hex digit of a value below 16, as `{:02x}` renders it. -/
def hexDigit (n : Nat) : Nat :=
  if n < 10 then 48 + n else 87 + n

/-- Numeric value of a lowercase hex digit (spec-side decoder). -/
def hexVal (d : Nat) : Nat :=
  if d ≤ 57 then d - 48 else d - 87

/-- The four bytes `\xHH` emitted for an escaped byte. -/
def escapeByte (c : Nat) : Bytes :=
  [92, 120, hexDigit (c / 16), hexDigit (c % 16)]

/-- Model of `write_escaped` (with `write_empty` for the empty case): an
empty field is `-`; otherwise each byte `c` with `c < b'!' || c == b'=' ||
c == b'\\' || c > b'~'` is emitted as a `\xHH` escape and every other byte
verbatim. -/
def writeEscaped (bytes : Bytes) : Bytes :=
  if bytes = [] then [45]
  else
    bytes.flatMap fun c =>
      if c < 33 ∨ c = 61 ∨ c = 92 ∨ c > 126 then escapeByte c else [c]

/-- C8 counterexample.  The space character (0x20) is printable ASCII and
is neither `=` nor `\`, yet `write_escaped` emits it as the escape
`\x20` (bytes `\ x 2 0`), not verbatim — the fields of a dumpfile line are
space-separated, so a literal space cannot appear inside one. -/
theorem c8_space_escaped_cex :
    writeEscaped [32] = [92, 120, 50, 48] ∧ writeEscaped [32] ≠ [32] := by
  constructor
  · decide
  · decide

/-- C8 (amended).  An empty field is emitted as `-`; in a non-empty field
exactly the bytes with `33 ≤ c ≤ 126` other than `=` and `\` — printable
ASCII without the space — are emitted verbatim, and every other byte
(controls, space, `=`, `\`, and everything above `~`) becomes a `\xHH`
escape whose two lowercase hex digits decode back to the byte. -/
theorem c8_escape_amended :
    writeEscaped [] = [45] ∧
    (∀ bytes : Bytes, bytes ≠ [] →
      writeEscaped bytes =
        bytes.flatMap fun c =>
          if 33 ≤ c ∧ c ≤ 126 ∧ c ≠ 61 ∧ c ≠ 92 then [c] else escapeByte c) ∧
    (∀ c : Nat,
      hexVal (hexDigit (c / 16)) * 16 + hexVal (hexDigit (c % 16)) = c) := by
  refine ⟨by decide, ?_, ?_⟩
  · intro bytes hne
    unfold writeEscaped
    rw [if_neg hne]
    have hfun : (fun c : Nat =>
        if c < 33 ∨ c = 61 ∨ c = 92 ∨ c > 126 then escapeByte c else [c]) =
        (fun c : Nat =>
          if 33 ≤ c ∧ c ≤ 126 ∧ c ≠ 61 ∧ c ≠ 92 then [c] else escapeByte c) := by
      funext c
      split_ifs with h1 h2
      · exfalso
        omega
      · rfl
      · rfl
      · exfalso
        omega
    rw [hfun]
  · intro c
    have hd : ∀ d : Nat, hexVal (hexDigit d) = d := by
      intro d
      unfold hexVal hexDigit
      split_ifs with h1 h2 h3
      · omega
      · omega
      · omega
      · omega
    rw [hd, hd]
    omega

/-- Witness for C8 (amended): the space byte is escaped per the amended
rule, and the hex digits of byte 171 (`\xab`) decode back to 171. -/
theorem c8_escape_amended_witness :
    writeEscaped [32] =
      List.flatMap [32] (fun c =>
        if 33 ≤ c ∧ c ≤ 126 ∧ c ≠ 61 ∧ c ≠ 92 then [c] else escapeByte c) ∧
    hexVal (hexDigit (171 / 16)) * 16 + hexVal (hexDigit (171 % 16)) = 171 :=
  ⟨c8_escape_amended.2.1 [32] (by decide), c8_escape_amended.2.2 171⟩

end Composefs
